import Mathlib

/-!
# Verification of torchquad's Boole rule and adaptive Newton-Cotes driver

This file embeds, in Lean 4, the parts of the `torchquad` repository that the
claims under scrutiny are about:

* `src/torchquad/integration/boole.py` — the fixed-grid Boole rule
  (`Boole.integrate`): grid-size check, and the dimension-by-dimension
  collapse built from the sliced stencil
  `7*x[0:-4][::4] + 32*x[1:-3][::4] + 12*x[2:-2][::4] + 32*x[3:-1][::4] + 7*x[4:][::4]`,
  each scaled by `h/22.5`, then summed along the collapsed axis.
* `src/torchquad/integration/adaptive_newton_cotes.py` — the
  evaluate–integrate–refine driver loop of `AdaptiveNewtonCotes.integrate`.

Function values are modelled as rationals (the claims are about the algebraic
structure of the computation, and exact arithmetic is the reference semantics
for the stencil weights).  Machine tensors over a hyper-grid with `N` points
per axis and `d` axes are modelled as functions `(Fin d → Fin N) → ℚ`; the
1-D slicing of the last axis is modelled on `List ℚ` with faithful Python
slice semantics.
-/

set_option maxHeartbeats 1000000

namespace Torchquad

/-! ## 1-D Boole stencil (boole.py, lines 68-80)

The Python code takes, along the last axis, the five slices
`x[0:-4]`, `x[1:-3]`, `x[2:-2]`, `x[3:-1]`, `x[4:]`, strides each by 4
(`[::4]`), combines them with weights `7, 32, 12, 32, 7`, scales by
`h / 22.5` and sums the axis away. -/

/-- Python slice `a[i:-j]` (for `j > 0`): keep everything up to the last `j`
elements, then drop the first `i`. -/
def pySlice (a : List ℚ) (i j : ℕ) : List ℚ :=
  (a.take (a.length - j)).drop i

/-- Python stride slice `a[::4]`: every fourth element, starting at index 0. -/
def every4 : List ℚ → List ℚ
  | [] => []
  | x :: rest => x :: every4 (rest.drop 3)
termination_by l => l.length
decreasing_by simp only [List.length_drop, List.length_cons]; omega

/-- The 1-D collapse that `Boole.integrate` applies to (the last axis of) a
vector of function values: the five strided slices combined with weights
`7, 32, 12, 32, 7`, each window scaled by `h / 22.5`, then summed
(`torch.sum` over the collapsed axis).  Direct translation of boole.py
lines 69-80 for a single axis. -/
def boole1D (h : ℚ) (a : List ℚ) : ℚ :=
  ((List.zipWith (· + ·)
      (List.zipWith (· + ·)
        ((every4 (pySlice a 0 4)).map (fun x => 7 * x))
        ((every4 (pySlice a 1 3)).map (fun x => 32 * x)))
      (List.zipWith (· + ·)
        ((every4 (pySlice a 2 2)).map (fun x => 12 * x))
        (List.zipWith (· + ·)
          ((every4 (pySlice a 3 1)).map (fun x => 32 * x))
          ((every4 (a.drop 4)).map (fun x => 7 * x))))).map
    (fun x => h / (45 / 2) * x)).sum

/-- The composite closed Newton-Cotes Boole sum over windows of stride 4, as a
function of the window count `M`: `sum over k < M of
h/22.5 * (7 f(4k) + 32 f(4k+1) + 12 f(4k+2) + 32 f(4k+3) + 7 f(4k+4))`.
Adjacent windows share their endpoint (`4k+4 = 4(k+1)`). -/
def windowSum (M : ℕ) (h : ℚ) (f : ℕ → ℚ) : ℚ :=
  ∑ k ∈ Finset.range M,
    h / (45 / 2) *
      (7 * f (4 * k) + 32 * f (4 * k + 1) + 12 * f (4 * k + 2) +
        32 * f (4 * k + 3) + 7 * f (4 * k + 4))

/-- The composite Boole sum of the spec, applied to a grid of function values
along one axis: with axis length `n`, it has `(n - 1) / 4` windows of stride 4,
window `k` combining `f[4k] .. f[4k+4]` with weights `7,32,12,32,7` and factor
`h/22.5`. -/
def booleCompositeSum (h : ℚ) (a : List ℚ) : ℚ :=
  windowSum ((a.length - 1) / 4) h (fun j => a.getD j 0)

theorem every4_nil : every4 [] = [] := by
  simp [every4]

theorem every4_cons (x : ℚ) (l : List ℚ) :
    every4 (x :: l) = x :: every4 (l.drop 3) := by
  simp [every4]

theorem pySlice_eq (a : List ℚ) (i j : ℕ) :
    pySlice a i j = (a.drop i).take (a.length - j - i) := by
  rw [pySlice, List.drop_take]

/-- Peeling the first window off the composite Boole sum. -/
theorem windowSum_succ_front (M : ℕ) (h : ℚ) (f : ℕ → ℚ) :
    windowSum (M + 1) h f =
      h / (45 / 2) * (7 * f 0 + 32 * f 1 + 12 * f 2 + 32 * f 3 + 7 * f 4) +
        windowSum M h (fun j => f (j + 4)) := by
  rw [windowSum, Finset.sum_range_succ', windowSum]
  have e : ∀ k ∈ Finset.range M,
      h / (45 / 2) * (7 * f (4 * (k + 1)) + 32 * f (4 * (k + 1) + 1) +
        12 * f (4 * (k + 1) + 2) + 32 * f (4 * (k + 1) + 3) +
        7 * f (4 * (k + 1) + 4)) =
      h / (45 / 2) * (7 * f (4 * k + 4) + 32 * f (4 * k + 1 + 4) +
        12 * f (4 * k + 2 + 4) + 32 * f (4 * k + 3 + 4) +
        7 * f (4 * k + 4 + 4)) := by
    intro k _
    rw [show 4 * (k + 1) = 4 * k + 4 by ring,
      show 4 * k + 4 + 1 = 4 * k + 1 + 4 by ring,
      show 4 * k + 4 + 2 = 4 * k + 2 + 4 by ring,
      show 4 * k + 4 + 3 = 4 * k + 3 + 4 by ring]
  rw [Finset.sum_congr rfl e]
  norm_num
  ring

/-- Core 1-D stencil correctness: for a value vector of any length, the sliced
and strided combination computed by `boole1D` equals the window-indexed
composite Boole sum with `(length - 1) / 4` windows. -/
theorem boole1D_eq_windowSum (h : ℚ) (a : List ℚ) :
    boole1D h a = windowSum ((a.length - 1) / 4) h (fun j => a.getD j 0) := by
  suffices H : ∀ (m : ℕ) (a : List ℚ), (a.length - 1) / 4 = m →
      boole1D h a = windowSum m h (fun j => a.getD j 0) by
    exact H _ a rfl
  intro m
  induction m with
  | zero =>
    intro a hm
    have hlen : a.length ≤ 4 := by omega
    have h0 : pySlice a 0 4 = [] := by
      simp [pySlice, show a.length - 4 = 0 by omega]
    have h4 : a.drop 4 = [] := List.drop_eq_nil_of_le hlen
    simp [boole1D, h0, h4, every4_nil, windowSum]
  | succ m ih =>
    intro a hm
    have hlen : 5 ≤ a.length := by omega
    obtain ⟨x0, a1, rfl⟩ : ∃ x0 a1, a = x0 :: a1 := by
      cases a with
      | nil => simp at hlen
      | cons x l => exact ⟨x, l, rfl⟩
    obtain ⟨x1, a2, rfl⟩ : ∃ x1 a2, a1 = x1 :: a2 := by
      cases a1 with
      | nil => simp at hlen
      | cons x l => exact ⟨x, l, rfl⟩
    obtain ⟨x2, a3, rfl⟩ : ∃ x2 a3, a2 = x2 :: a3 := by
      cases a2 with
      | nil => simp at hlen
      | cons x l => exact ⟨x, l, rfl⟩
    obtain ⟨x3, rest, rfl⟩ : ∃ x3 rest, a3 = x3 :: rest := by
      cases a3 with
      | nil => simp at hlen
      | cons x l => exact ⟨x, l, rfl⟩
    have hrl : 1 ≤ rest.length := by
      simp only [List.length_cons] at hlen
      omega
    have hlen4 : (x0 :: x1 :: x2 :: x3 :: rest).length = rest.length + 4 := by
      simp
    -- the five slices of `a` are each a head consed onto the matching slice
    -- of `rest`
    have hs0 : every4 (pySlice (x0 :: x1 :: x2 :: x3 :: rest) 0 4) =
        x0 :: every4 (pySlice rest 0 4) := by
      rw [pySlice_eq, pySlice_eq, hlen4, List.drop_zero,
        show rest.length + 4 - 4 - 0 = (rest.length - 1) + 1 by omega,
        List.take_succ_cons, every4_cons, List.drop_take,
        show (x1 :: x2 :: x3 :: rest).drop 3 = rest from rfl,
        List.drop_zero]
      congr 2
    have hs1 : every4 (pySlice (x0 :: x1 :: x2 :: x3 :: rest) 1 3) =
        x1 :: every4 (pySlice rest 1 3) := by
      rw [pySlice_eq, pySlice_eq, hlen4,
        show (x0 :: x1 :: x2 :: x3 :: rest).drop 1 = x1 :: x2 :: x3 :: rest
          from rfl,
        show rest.length + 4 - 3 - 1 = (rest.length - 1) + 1 by omega,
        List.take_succ_cons, every4_cons, List.drop_take,
        show (x2 :: x3 :: rest).drop 3 = rest.drop 1 from rfl]
      congr 2
    have hs2 : every4 (pySlice (x0 :: x1 :: x2 :: x3 :: rest) 2 2) =
        x2 :: every4 (pySlice rest 2 2) := by
      rw [pySlice_eq, pySlice_eq, hlen4,
        show (x0 :: x1 :: x2 :: x3 :: rest).drop 2 = x2 :: x3 :: rest
          from rfl,
        show rest.length + 4 - 2 - 2 = (rest.length - 1) + 1 by omega,
        List.take_succ_cons, every4_cons, List.drop_take,
        show (x3 :: rest).drop 3 = rest.drop 2 from rfl]
      congr 2
    have hs3 : every4 (pySlice (x0 :: x1 :: x2 :: x3 :: rest) 3 1) =
        x3 :: every4 (pySlice rest 3 1) := by
      rw [pySlice_eq, pySlice_eq, hlen4,
        show (x0 :: x1 :: x2 :: x3 :: rest).drop 3 = x3 :: rest from rfl,
        show rest.length + 4 - 1 - 3 = (rest.length - 1) + 1 by omega,
        List.take_succ_cons, every4_cons, List.drop_take]
    have hs4 : every4 ((x0 :: x1 :: x2 :: x3 :: rest).drop 4) =
        rest.getD 0 0 :: every4 (rest.drop 4) := by
      rw [show (x0 :: x1 :: x2 :: x3 :: rest).drop 4 = rest from rfl]
      cases rest with
      | nil => simp at hrl
      | cons r0 rt =>
        rw [every4_cons, show (r0 :: rt).drop 4 = rt.drop 3 from rfl,
          List.getD_cons_zero]
    have hmr : (rest.length - 1) / 4 = m := by
      rw [hlen4] at hm
      omega
    have hshiftfun : (fun j => (x0 :: x1 :: x2 :: x3 :: rest).getD (j + 4) 0) =
        fun j => rest.getD j 0 := by
      funext j
      rw [show j + 4 = (((j + 1) + 1) + 1) + 1 by omega]
      simp only [List.getD_cons_succ]
    simp only [boole1D, hs0, hs1, hs2, hs3, hs4, List.map_cons,
      List.zipWith_cons_cons, List.sum_cons]
    rw [windowSum_succ_front, hshiftfun, ← ih rest hmr,
      show (x0 :: x1 :: x2 :: x3 :: rest).getD 0 0 = x0 from rfl,
      show (x0 :: x1 :: x2 :: x3 :: rest).getD 1 0 = x1 from rfl,
      show (x0 :: x1 :: x2 :: x3 :: rest).getD 2 0 = x2 from rfl,
      show (x0 :: x1 :: x2 :: x3 :: rest).getD 3 0 = x3 from rfl,
      show (x0 :: x1 :: x2 :: x3 :: rest).getD 4 0 = rest.getD 0 0 from rfl]
    simp only [boole1D]
    congr 1
    ring

/-! ## Per-point weights of the composite Boole sum

Regrouping the window sum point by point: interior points shared by two
windows get weight `7 + 7 = 14`, the two boundary points get `7`, and the
interior stencil points get `32`, `12`, `32`. -/

/-- Per-point weight of the composite Boole sum over the index range
`0 .. L` (`L` the last grid index, a multiple of 4); zero when there are no
windows (`L = 0`). -/
def booleW (L j : ℕ) : ℚ :=
  if L = 0 then 0
  else if j = 0 ∨ j = L then 7
  else if j % 4 = 2 then 12
  else if j % 4 = 0 then 14
  else 32

/-- The composite Boole sum written per grid point instead of per window. -/
def pointSum (M : ℕ) (h : ℚ) (f : ℕ → ℚ) : ℚ :=
  ∑ j ∈ Finset.range (4 * M + 1), h / (45 / 2) * booleW (4 * M) j * f j

theorem sum_range_add_four (n : ℕ) (g : ℕ → ℚ) :
    ∑ j ∈ Finset.range (n + 4), g j =
      (∑ j ∈ Finset.range n, g j) +
        (g n + g (n + 1) + g (n + 2) + g (n + 3)) := by
  rw [Finset.sum_range_add,
    show (4 : ℕ) = 3 + 1 from rfl, Finset.sum_range_succ,
    show (3 : ℕ) = 2 + 1 from rfl, Finset.sum_range_succ,
    show (2 : ℕ) = 1 + 1 from rfl, Finset.sum_range_succ,
    Finset.sum_range_one]
  ring_nf

theorem booleW_stable {M j : ℕ} (hj : j < 4 * M) :
    booleW (4 * M + 4) j = booleW (4 * M) j := by
  have h1 : ¬(4 * M + 4 = 0) := by omega
  have h2 : ¬(4 * M = 0) := by omega
  have h3 : j ≠ 4 * M + 4 := by omega
  have h4 : j ≠ 4 * M := by omega
  simp only [booleW]
  rw [if_neg h1, if_neg h2]
  by_cases h0 : j = 0
  · rw [if_pos (Or.inl h0), if_pos (Or.inl h0)]
  · rw [if_neg (not_or.mpr ⟨h0, h3⟩), if_neg (not_or.mpr ⟨h0, h4⟩)]

theorem booleW_corner (M : ℕ) :
    booleW (4 * M + 4) (4 * M) = booleW (4 * M) (4 * M) + 7 := by
  rcases Nat.eq_zero_or_pos M with hM | hM
  · subst hM; norm_num [booleW]
  · simp only [booleW]
    rw [if_neg (by omega), if_neg (by omega), if_neg (by omega),
      if_pos (by omega), if_neg (by omega), if_pos (Or.inr trivial)]
    norm_num

theorem booleW_val1 (M : ℕ) : booleW (4 * M + 4) (4 * M + 1) = 32 := by
  simp only [booleW]
  rw [if_neg (by omega), if_neg (by omega), if_neg (by omega),
    if_neg (by omega)]

theorem booleW_val2 (M : ℕ) : booleW (4 * M + 4) (4 * M + 2) = 12 := by
  simp only [booleW]
  rw [if_neg (by omega), if_neg (by omega), if_pos (by omega)]

theorem booleW_val3 (M : ℕ) : booleW (4 * M + 4) (4 * M + 3) = 32 := by
  simp only [booleW]
  rw [if_neg (by omega), if_neg (by omega), if_neg (by omega),
    if_neg (by omega)]

theorem booleW_val4 (M : ℕ) : booleW (4 * M + 4) (4 * M + 4) = 7 := by
  simp only [booleW]
  rw [if_neg (by omega), if_pos (Or.inr trivial)]

/-- The window-indexed composite Boole sum regrouped per grid point. -/
theorem windowSum_eq_pointSum (M : ℕ) (h : ℚ) (f : ℕ → ℚ) :
    windowSum M h f = pointSum M h f := by
  induction M with
  | zero => simp [windowSum, pointSum, booleW]
  | succ M ih =>
    have hW : windowSum (M + 1) h f = windowSum M h f +
        h / (45 / 2) * (7 * f (4 * M) + 32 * f (4 * M + 1) +
          12 * f (4 * M + 2) + 32 * f (4 * M + 3) + 7 * f (4 * M + 4)) := by
      rw [windowSum, windowSum, Finset.sum_range_succ]
    have hP : pointSum (M + 1) h f = pointSum M h f +
        h / (45 / 2) * (7 * f (4 * M) + 32 * f (4 * M + 1) +
          12 * f (4 * M + 2) + 32 * f (4 * M + 3) + 7 * f (4 * M + 4)) := by
      rw [pointSum, show 4 * (M + 1) + 1 = (4 * M + 1) + 4 by ring,
        sum_range_add_four, show 4 * (M + 1) = 4 * M + 4 by ring,
        Finset.sum_range_succ,
        Finset.sum_congr rfl
          (fun j hj => by rw [booleW_stable (Finset.mem_range.mp hj)]),
        show 4 * M + 1 + 1 = 4 * M + 2 by ring,
        show 4 * M + 1 + 2 = 4 * M + 3 by ring,
        show 4 * M + 1 + 3 = 4 * M + 4 by ring,
        booleW_corner, booleW_val1, booleW_val2, booleW_val3, booleW_val4,
        pointSum, Finset.sum_range_succ]
      ring
    rw [hW, hP, ih]

/-! ## Multi-dimensional collapse (boole.py, lines 65-83)

`Boole.integrate` reshapes the evaluated function values into an
`[N, N, ...]` hyper-grid (one axis per dimension, `N` points per axis) and
collapses one axis per loop iteration: iteration `cur_dim` applies the sliced
stencil to the last remaining axis with spacing `h[cur_dim]` and then sums
that axis away.  Tensors are modelled as functions `(Fin d → Fin N) → ℚ`. -/

/-- Per-point weight of `boole1D` on a vector of length `N` (any `N`): the
composite weight `booleW` scaled by `h/22.5` on the `4*((N-1)/4)+1` points the
windows cover, and `0` on trailing points no window reaches. -/
def Wfull (s : ℚ) (N j : ℕ) : ℚ :=
  if j < 4 * ((N - 1) / 4) + 1 then s / (45 / 2) * booleW (4 * ((N - 1) / 4)) j
  else 0

/-- `boole1D` on a length-`N` vector is the linear functional with the
per-point composite Boole weights. -/
theorem boole1D_ofFn (s : ℚ) {N : ℕ} (g : Fin N → ℚ) :
    boole1D s (List.ofFn g) = ∑ j : Fin N, Wfull s N (j : ℕ) * g j := by
  have hgetD : ∀ j : Fin N, (List.ofFn g).getD (j : ℕ) 0 = g j := by
    intro j
    rw [List.getD_eq_getElem?_getD, List.getElem?_ofFn]
    simp [List.ofFnNthVal, j.isLt]
  rcases Nat.eq_zero_or_pos N with hN | hN
  · subst hN
    rw [boole1D_eq_windowSum]
    simp [windowSum]
  · rw [boole1D_eq_windowSum, List.length_ofFn, windowSum_eq_pointSum,
      pointSum]
    have hsub : Finset.range (4 * ((N - 1) / 4) + 1) ⊆ Finset.range N := by
      intro x hx
      simp only [Finset.mem_range] at hx ⊢
      omega
    have hcongr : ∀ j ∈ Finset.range (4 * ((N - 1) / 4) + 1),
        s / (45 / 2) * booleW (4 * ((N - 1) / 4)) j *
            (List.ofFn g).getD j 0 =
          Wfull s N j * (List.ofFn g).getD j 0 := by
      intro j hj
      rw [Wfull, if_pos (Finset.mem_range.mp hj)]
    rw [Finset.sum_congr rfl hcongr,
      Finset.sum_subset hsub (fun x _ hx => by
        rw [Wfull, if_neg (fun hlt => hx (Finset.mem_range.mpr hlt)),
          zero_mul]),
      ← Fin.sum_univ_eq_sum_range (fun j => Wfull s N j * (List.ofFn g).getD j 0) N]
    exact Finset.sum_congr rfl (fun j _ => by rw [hgetD j])

/-- One iteration of the collapse loop: apply the sliced stencil to the last
axis and sum it away. -/
def booleCollapseLast {d N : ℕ} (s : ℚ) (T : (Fin (d + 1) → Fin N) → ℚ) :
    (Fin d → Fin N) → ℚ :=
  fun idx => boole1D s (List.ofFn (fun j => T (Fin.snoc idx j)))

/-- The dimension-by-dimension collapse of `Boole.integrate`: iteration
`cur_dim` collapses the current last axis with spacing `h cur_dim`; after all
`d` iterations a scalar remains. -/
def booleND (N : ℕ) : (d : ℕ) → (Fin d → ℚ) → ((Fin d → Fin N) → ℚ) → ℚ
  | 0, _, T => T (fun i => i.elim0)
  | d + 1, h, T => booleND N d (fun i => h i.succ) (booleCollapseLast (h 0) T)

def snocEquiv (d N : ℕ) : ((Fin d → Fin N) × Fin N) ≃ (Fin (d + 1) → Fin N) where
  toFun p := Fin.snoc p.1 p.2
  invFun g := (fun i => g i.castSucc, g (Fin.last d))
  left_inv p := by
    refine Prod.ext ?_ ?_
    · funext i
      simp [Fin.snoc_castSucc]
    · simp [Fin.snoc_last]
  right_inv g := by
    funext i
    refine Fin.lastCases ?_ (fun i => ?_) i
    · simp [Fin.snoc_last]
    · simp [Fin.snoc_castSucc]

theorem sum_pair_snoc {d N : ℕ} (F : (Fin (d + 1) → Fin N) → ℚ) :
    ∑ idx : (Fin d → Fin N), ∑ j : Fin N, F (Fin.snoc idx j) =
      ∑ g : (Fin (d + 1) → Fin N), F g := by
  have h2 : ∑ p : (Fin d → Fin N) × Fin N, F (Fin.snoc p.1 p.2) =
      ∑ idx : (Fin d → Fin N), ∑ j : Fin N, F (Fin.snoc idx j) :=
    Fintype.sum_prod_type _
  have h1 : ∑ p : (Fin d → Fin N) × Fin N, F (Fin.snoc p.1 p.2) =
      ∑ g : (Fin (d + 1) → Fin N), F g :=
    Fintype.sum_equiv (snocEquiv d N) _ _ (fun p => rfl)
  exact h2.symm.trans h1

/-- Closed form of the dimension collapse: a weighted sum over all
multi-indices, the weight of axis `a` being the per-point Boole weight with
the spacing `h a.rev` that the loop applies to that axis (iteration `k`
collapses axis `d - 1 - k`). -/
theorem booleND_eq_sum (N : ℕ) :
    ∀ (d : ℕ) (h : Fin d → ℚ) (T : (Fin d → Fin N) → ℚ),
      booleND N d h T =
        ∑ idx : (Fin d → Fin N),
          (∏ a, Wfull (h a.rev) N (idx a : ℕ)) * T idx := by
  intro d
  induction d with
  | zero =>
    intro h T
    rw [show booleND N 0 h T = T (fun i => i.elim0) from rfl,
      Fintype.sum_unique]
    have h1 : (∏ a : Fin 0, Wfull (h a.rev) N ((default : Fin 0 → Fin N) a : ℕ)) = 1 := by
      simp
    rw [h1, one_mul]
    exact congrArg T (Subsingleton.elim _ _)
  | succ d ih =>
    intro h T
    rw [show booleND N (d + 1) h T =
        booleND N d (fun i => h i.succ) (booleCollapseLast (h 0) T) from rfl,
      ih]
    have hfib : ∀ idx : Fin d → Fin N,
        booleCollapseLast (h 0) T idx =
          ∑ j : Fin N, Wfull (h 0) N (j : ℕ) * T (Fin.snoc idx j) :=
      fun idx => boole1D_ofFn (h 0) _
    have hkey : ∀ (idx : Fin d → Fin N) (j : Fin N),
        (∏ a : Fin d, Wfull ((fun i => h i.succ) a.rev) N (idx a : ℕ)) *
            (Wfull (h 0) N (j : ℕ) * T (Fin.snoc idx j)) =
          (∏ b : Fin (d + 1), Wfull (h b.rev) N ((Fin.snoc idx j : Fin (d + 1) → Fin N) b).val) *
            T (Fin.snoc idx j) := by
      intro idx j
      rw [Fin.prod_univ_castSucc]
      simp only [Fin.rev_castSucc, Fin.snoc_castSucc, Fin.rev_last,
        Fin.snoc_last]
      ring
    calc ∑ idx : (Fin d → Fin N),
          (∏ a, Wfull ((fun i => h i.succ) a.rev) N (idx a : ℕ)) *
            booleCollapseLast (h 0) T idx
        = ∑ idx : (Fin d → Fin N), ∑ j : Fin N,
            (∏ a, Wfull ((fun i => h i.succ) a.rev) N (idx a : ℕ)) *
              (Wfull (h 0) N (j : ℕ) * T (Fin.snoc idx j)) := by
          refine Finset.sum_congr rfl (fun idx _ => ?_)
          rw [hfib idx, Finset.mul_sum]
      _ = ∑ idx : (Fin d → Fin N), ∑ j : Fin N,
            (∏ b : Fin (d + 1), Wfull (h b.rev) N ((Fin.snoc idx j : Fin (d + 1) → Fin N) b).val) *
              T (Fin.snoc idx j) := by
          refine Finset.sum_congr rfl (fun idx _ => ?_)
          exact Finset.sum_congr rfl (fun j _ => hkey idx j)
      _ = ∑ g : (Fin (d + 1) → Fin N),
            (∏ b : Fin (d + 1), Wfull (h b.rev) N (g b : ℕ)) * T g :=
          sum_pair_snoc
            (fun g => (∏ b : Fin (d + 1), Wfull (h b.rev) N (g b : ℕ)) * T g)

/-! ## Boole.integrate: grid-size check and evaluation (boole.py, lines 47-83) -/

/-- Outcome record of one `Boole.integrate` call: whether the `ValueError`
was raised, how many grid points the integrand was evaluated at, and the
returned value. -/
structure BooleRun where
  errorRaised : Bool
  evalCount : ℕ
  result : Option ℚ

/-- `Boole.integrate` (boole.py, lines 47-83) after grid construction, as a
function of the per-dimension grid point count `gridN` (the `_N` of the
`IntegrationGrid`, whose construction is input handling outside the modelled
core), the per-dimension spacings `h`, and the integrand values `T` on the
hyper-grid.  The check `(self._grid._N - 1) % 4 > 0` uses Python integer `%`,
which is `Int.emod`; when it fails a `ValueError` is raised before
`self._eval(self._grid.points)` runs, so the integrand is never evaluated;
otherwise the integrand is evaluated on all `gridN ^ dim` grid points and the
dimension-by-dimension collapse produces the result. -/
def booleIntegrate (dim gridN : ℕ) (h : Fin dim → ℚ)
    (T : (Fin dim → Fin gridN) → ℚ) : BooleRun :=
  if ((gridN : ℤ) - 1) % 4 > 0 then
    { errorRaised := true, evalCount := 0, result := none }
  else
    { errorRaised := false, evalCount := gridN ^ dim,
      result := some (booleND gridN dim h T) }

/-! ## Polynomial exactness of the composite Boole rule -/

/-- Closed-form integral of the monomial `x^p` over `[lo, hi]`. -/
def exactMonomialIntegral (lo hi : ℚ) (p : ℕ) : ℚ :=
  (hi ^ (p + 1) - lo ^ (p + 1)) / (p + 1)

/-- A multivariate polynomial with per-variable degree at most 4, given by its
coefficients `C` on the monomial exponents `Fin d → Fin 5`. -/
def polyEval (d : ℕ) (C : (Fin d → Fin 5) → ℚ) (x : Fin d → ℚ) : ℚ :=
  ∑ α : (Fin d → Fin 5), C α * ∏ i, x i ^ (α i : ℕ)

/-- Closed-form integral of such a polynomial over the box
`[lo 0, hi 0] × ... × [lo (d-1), hi (d-1)]` (iterated one-dimensional
integration of each monomial). -/
def exactBoxIntegral (d : ℕ) (lo hi : Fin d → ℚ)
    (C : (Fin d → Fin 5) → ℚ) : ℚ :=
  ∑ α : (Fin d → Fin 5), C α * ∏ i, exactMonomialIntegral (lo i) (hi i) (α i : ℕ)

/-- Single-axis exactness: the per-point composite Boole weights integrate
monomials of degree at most 4 exactly on the grid `lo, lo + s, ..., lo + 4Ms`. -/
theorem boole_monomial_exact (p : Fin 5) (lo s : ℚ) (M : ℕ) :
    ∑ j : Fin (4 * M + 1),
        Wfull s (4 * M + 1) (j : ℕ) * (lo + ((j : ℕ) : ℚ) * s) ^ (p : ℕ) =
      ((lo + 4 * (M : ℚ) * s) ^ ((p : ℕ) + 1) - lo ^ ((p : ℕ) + 1)) /
        ((p : ℕ) + 1) := by
  have hK : (4 * M + 1 - 1) / 4 = M := by omega
  have hW : ∀ j : Fin (4 * M + 1),
      Wfull s (4 * M + 1) (j : ℕ) = s / (45 / 2) * booleW (4 * M) (j : ℕ) := by
    intro j
    have hj : (j : ℕ) < 4 * ((4 * M + 1 - 1) / 4) + 1 := by
      rw [hK]; exact j.isLt
    rw [Wfull, if_pos hj, hK]
  calc ∑ j : Fin (4 * M + 1),
        Wfull s (4 * M + 1) (j : ℕ) * (lo + ((j : ℕ) : ℚ) * s) ^ (p : ℕ)
      = ∑ j : Fin (4 * M + 1),
          s / (45 / 2) * booleW (4 * M) (j : ℕ) *
            (lo + ((j : ℕ) : ℚ) * s) ^ (p : ℕ) :=
        Finset.sum_congr rfl (fun j _ => by rw [hW j])
    _ = ∑ j ∈ Finset.range (4 * M + 1),
          s / (45 / 2) * booleW (4 * M) j * (lo + (j : ℚ) * s) ^ (p : ℕ) :=
        Fin.sum_univ_eq_sum_range
          (fun j => s / (45 / 2) * booleW (4 * M) j *
            (lo + (j : ℚ) * s) ^ (p : ℕ)) (4 * M + 1)
    _ = pointSum M s (fun j => (lo + (j : ℚ) * s) ^ (p : ℕ)) := rfl
    _ = windowSum M s (fun j => (lo + (j : ℚ) * s) ^ (p : ℕ)) :=
        (windowSum_eq_pointSum M s _).symm
    _ = ∑ k ∈ Finset.range M,
          ((lo + 4 * ((k + 1 : ℕ) : ℚ) * s) ^ ((p : ℕ) + 1) / ((p : ℕ) + 1) -
            (lo + 4 * ((k : ℕ) : ℚ) * s) ^ ((p : ℕ) + 1) / ((p : ℕ) + 1)) := by
        rw [windowSum]
        refine Finset.sum_congr rfl (fun k _ => ?_)
        fin_cases p <;> (push_cast; ring)
    _ = (lo + 4 * ((M : ℕ) : ℚ) * s) ^ ((p : ℕ) + 1) / ((p : ℕ) + 1) -
          (lo + 4 * ((0 : ℕ) : ℚ) * s) ^ ((p : ℕ) + 1) / ((p : ℕ) + 1) :=
        Finset.sum_range_sub
          (fun k => (lo + 4 * ((k : ℕ) : ℚ) * s) ^ ((p : ℕ) + 1) /
            ((p : ℕ) + 1)) M
    _ = ((lo + 4 * (M : ℚ) * s) ^ ((p : ℕ) + 1) - lo ^ ((p : ℕ) + 1)) /
          ((p : ℕ) + 1) := by
        rw [show lo + 4 * ((0 : ℕ) : ℚ) * s = lo by push_cast; ring,
          div_sub_div_same]

/-- Distributing a product of sums over `Fin N`-indexed choices. -/
theorem prod_fin_sum {N : ℕ} :
    ∀ {n : ℕ} (f : Fin n → Fin N → ℚ),
      (∏ a, ∑ j, f a j) = ∑ k : (Fin n → Fin N), ∏ a, f a (k a) := by
  intro n
  induction n with
  | zero =>
    intro f
    rw [Fintype.sum_unique]
    simp
  | succ n ih =>
    intro f
    rw [Fin.prod_univ_castSucc, ih (fun a j => f a.castSucc j),
      Finset.sum_mul]
    have hterm : ∀ k : Fin n → Fin N,
        (∏ a : Fin n, f a.castSucc (k a)) * (∑ j : Fin N, f (Fin.last n) j) =
          ∑ j : Fin N, ∏ b : Fin (n + 1),
            f b ((Fin.snoc k j : Fin (n + 1) → Fin N) b) := by
      intro k
      rw [Finset.mul_sum]
      refine Finset.sum_congr rfl (fun j _ => ?_)
      rw [Fin.prod_univ_castSucc]
      simp only [Fin.snoc_castSucc, Fin.snoc_last]
    rw [Finset.sum_congr rfl (fun k _ => hterm k)]
    exact sum_pair_snoc (fun g => ∏ b : Fin (n + 1), f b (g b))

/-- The collapse of a polynomial integrand factors into a product of 1-D
weighted sums, one per dimension (dimension `i` laid out on tensor axis
`i.rev`, the axis the collapse loop pairs with spacing `s i`). -/
theorem booleND_weighted_prod (d N : ℕ) (s lo : Fin d → ℚ)
    (C : (Fin d → Fin 5) → ℚ) :
    booleND N d s
      (fun idx => polyEval d C
        (fun i => lo i + ((idx i.rev : ℕ) : ℚ) * s i)) =
    ∑ α : (Fin d → Fin 5), C α * ∏ i,
      ∑ j : Fin N,
        Wfull (s i) N (j : ℕ) * (lo i + ((j : ℕ) : ℚ) * s i) ^ (α i : ℕ) := by
  rw [booleND_eq_sum]
  calc
    ∑ idx : (Fin d → Fin N),
        (∏ a, Wfull (s a.rev) N (idx a : ℕ)) *
          polyEval d C (fun i => lo i + ((idx i.rev : ℕ) : ℚ) * s i)
      = ∑ idx : (Fin d → Fin N), ∑ α : (Fin d → Fin 5),
          C α * ((∏ a, Wfull (s a.rev) N (idx a : ℕ)) *
            ∏ i, (lo i + ((idx i.rev : ℕ) : ℚ) * s i) ^ (α i : ℕ)) := by
        refine Finset.sum_congr rfl (fun idx _ => ?_)
        rw [polyEval, Finset.mul_sum]
        exact Finset.sum_congr rfl (fun α _ => by ring)
    _ = ∑ α : (Fin d → Fin 5), ∑ idx : (Fin d → Fin N),
          C α * ((∏ a, Wfull (s a.rev) N (idx a : ℕ)) *
            ∏ i, (lo i + ((idx i.rev : ℕ) : ℚ) * s i) ^ (α i : ℕ)) :=
        Finset.sum_comm
    _ = ∑ α : (Fin d → Fin 5), C α * ∏ i,
          ∑ j : Fin N,
            Wfull (s i) N (j : ℕ) *
              (lo i + ((j : ℕ) : ℚ) * s i) ^ (α i : ℕ) := by
        refine Finset.sum_congr rfl (fun α _ => ?_)
        rw [← Finset.mul_sum]
        congr 1
        calc
          ∑ idx : (Fin d → Fin N),
              (∏ a, Wfull (s a.rev) N (idx a : ℕ)) *
                ∏ i, (lo i + ((idx i.rev : ℕ) : ℚ) * s i) ^ (α i : ℕ)
            = ∑ idx : (Fin d → Fin N),
                ∏ a, (Wfull (s a.rev) N (idx a : ℕ) *
                  (lo a.rev + ((idx a : ℕ) : ℚ) * s a.rev) ^ (α a.rev : ℕ)) := by
              refine Finset.sum_congr rfl (fun idx _ => ?_)
              have hre : (∏ i, (lo i + ((idx i.rev : ℕ) : ℚ) * s i) ^ (α i : ℕ)) =
                  ∏ a, (lo a.rev + ((idx a : ℕ) : ℚ) * s a.rev) ^ (α a.rev : ℕ) :=
                Fintype.prod_equiv Fin.revPerm _ _ (fun x => by simp)
              rw [hre, ← Finset.prod_mul_distrib]
          _ = ∏ a, ∑ j : Fin N,
                Wfull (s a.rev) N (j : ℕ) *
                  (lo a.rev + ((j : ℕ) : ℚ) * s a.rev) ^ (α a.rev : ℕ) :=
              (prod_fin_sum (fun a j =>
                Wfull (s a.rev) N (j : ℕ) *
                  (lo a.rev + ((j : ℕ) : ℚ) * s a.rev) ^ (α a.rev : ℕ))).symm
          _ = ∏ i, ∑ j : Fin N,
                Wfull (s i) N (j : ℕ) *
                  (lo i + ((j : ℕ) : ℚ) * s i) ^ (α i : ℕ) :=
              Fintype.prod_equiv Fin.revPerm _ _ (fun x => by simp)

/-- Multivariate polynomial exactness of the full dimension collapse on the
regular grid over the box with `4M+1` points per axis. -/
theorem booleND_poly_exact (d M : ℕ) (hM : 1 ≤ M) (lo hi : Fin d → ℚ)
    (C : (Fin d → Fin 5) → ℚ) :
    booleND (4 * M + 1) d (fun i => (hi i - lo i) / (4 * M))
      (fun idx => polyEval d C
        (fun i => lo i + ((idx i.rev : ℕ) : ℚ) * ((hi i - lo i) / (4 * M)))) =
      exactBoxIntegral d lo hi C := by
  have hMQ : ((M : ℚ)) ≠ 0 := Nat.cast_ne_zero.mpr (by omega)
  rw [booleND_weighted_prod d (4 * M + 1)
    (fun i => (hi i - lo i) / (4 * M)) lo C]
  rw [exactBoxIntegral]
  refine Finset.sum_congr rfl (fun α _ => ?_)
  congr 1
  refine Finset.prod_congr rfl (fun i _ => ?_)
  rw [boole_monomial_exact (α i) (lo i) ((hi i - lo i) / (4 * M)) M]
  rw [show lo i + 4 * (M : ℚ) * ((hi i - lo i) / (4 * M)) = hi i by
    field_simp]
  rfl

/-! ## Order-independence of the dimension collapse -/

/-- Collapsing one chosen axis `a` with spacing `s`: apply the 1-D stencil to
the fiber along that axis.  The result no longer depends on coordinate `a`. -/
def collapseAxis {d N : ℕ} (a : Fin d) (s : ℚ) (T : (Fin d → Fin N) → ℚ) :
    (Fin d → Fin N) → ℚ :=
  fun idx => boole1D s (List.ofFn (fun j => T (Function.update idx a j)))

/-- Collapsing a sequence of (axis, spacing) pairs, in list order. -/
def foldCollapse {d N : ℕ} (l : List (Fin d × ℚ)) (T : (Fin d → Fin N) → ℚ) :
    (Fin d → Fin N) → ℚ :=
  l.foldl (fun Tc p => collapseAxis p.1 p.2 Tc) T

/-- The (axis, spacing) pairing in the order the code uses: iteration `k` of
the collapse loop collapses the current last axis, which is axis
`(d - 1) - k` of the value tensor, with spacing `h k`. -/
def booleCodeOrder (d : ℕ) (h : Fin d → ℚ) : List (Fin d × ℚ) :=
  List.ofFn (fun k : Fin d => (k.rev, h k))

theorem foldCollapse_cons {d N : ℕ} (q : Fin d × ℚ) (l : List (Fin d × ℚ))
    (T : (Fin d → Fin N) → ℚ) :
    foldCollapse (q :: l) T = foldCollapse l (collapseAxis q.1 q.2 T) := rfl

theorem collapseAxis_eq_sum {d N : ℕ} (a : Fin d) (s : ℚ)
    (T : (Fin d → Fin N) → ℚ) (idx : Fin d → Fin N) :
    collapseAxis a s T idx =
      ∑ j : Fin N, Wfull s N (j : ℕ) * T (Function.update idx a j) :=
  boole1D_ofFn s _

/-- Collapses of two distinct axes commute. -/
theorem collapseAxis_comm {d N : ℕ} {a b : Fin d} (hab : a ≠ b) (s t : ℚ)
    (T : (Fin d → Fin N) → ℚ) :
    collapseAxis a s (collapseAxis b t T) =
      collapseAxis b t (collapseAxis a s T) := by
  funext idx
  rw [collapseAxis_eq_sum, collapseAxis_eq_sum]
  calc ∑ j : Fin N, Wfull s N (j : ℕ) *
        collapseAxis b t T (Function.update idx a j)
      = ∑ j : Fin N, ∑ k : Fin N, Wfull s N (j : ℕ) *
          (Wfull t N (k : ℕ) *
            T (Function.update (Function.update idx a j) b k)) := by
        refine Finset.sum_congr rfl (fun j _ => ?_)
        rw [collapseAxis_eq_sum, Finset.mul_sum]
    _ = ∑ k : Fin N, ∑ j : Fin N, Wfull t N (k : ℕ) *
          (Wfull s N (j : ℕ) *
            T (Function.update (Function.update idx b k) a j)) := by
        rw [Finset.sum_comm]
        refine Finset.sum_congr rfl (fun k _ => ?_)
        refine Finset.sum_congr rfl (fun j _ => ?_)
        rw [Function.update_comm hab]
        ring
    _ = ∑ k : Fin N, Wfull t N (k : ℕ) *
          collapseAxis a s T (Function.update idx b k) := by
        refine Finset.sum_congr rfl (fun k _ => ?_)
        rw [collapseAxis_eq_sum, Finset.mul_sum]

/-- Reordering the collapse sequence (with pairwise distinct axes) does not
change the resulting tensor. -/
theorem foldCollapse_perm {d N : ℕ} {l₁ l₂ : List (Fin d × ℚ)}
    (hp : l₁.Perm l₂) :
    (l₁.map Prod.fst).Nodup →
      ∀ T : (Fin d → Fin N) → ℚ, foldCollapse l₁ T = foldCollapse l₂ T := by
  induction hp with
  | nil => intro _ T; rfl
  | cons x hperm ih =>
    intro hnd T
    rw [List.map_cons, List.nodup_cons] at hnd
    rw [foldCollapse_cons, foldCollapse_cons]
    exact ih hnd.2 _
  | swap x y l =>
    intro hnd T
    have hxy : x.1 ≠ y.1 := by
      rw [List.map_cons, List.map_cons, List.nodup_cons, List.mem_cons] at hnd
      exact fun hcontra => hnd.1 (Or.inl hcontra.symm)
    rw [foldCollapse_cons, foldCollapse_cons, foldCollapse_cons,
      foldCollapse_cons, collapseAxis_comm hxy]
  | trans h12 h23 ih12 ih23 =>
    intro hnd T
    rw [ih12 hnd T, ih23 (((h12.map Prod.fst).nodup_iff).mp hnd) T]

/-- Restriction of a rank-`d+1` tensor by fixing the last coordinate. -/
def restrictLast {d N : ℕ} (T : (Fin (d + 1) → Fin N) → ℚ) (j : Fin N) :
    (Fin d → Fin N) → ℚ :=
  fun idx => T (Fin.snoc idx j)

theorem restrict_collapse_castSucc {d N : ℕ} (a : Fin d) (s : ℚ)
    (T : (Fin (d + 1) → Fin N) → ℚ) (j : Fin N) :
    restrictLast (collapseAxis a.castSucc s T) j =
      collapseAxis a s (restrictLast T j) := by
  funext idx
  simp only [restrictLast, collapseAxis]
  congr 2
  funext k
  rw [← Fin.snoc_update]

theorem restrict_collapse_last {d N : ℕ} (s : ℚ)
    (T : (Fin (d + 1) → Fin N) → ℚ) (j : Fin N) :
    restrictLast (collapseAxis (Fin.last d) s T) j = booleCollapseLast s T := by
  funext idx
  simp only [restrictLast, collapseAxis, booleCollapseLast]
  congr 2
  funext k
  rw [Fin.update_snoc_last]

theorem restrict_foldCollapse {d N : ℕ} (L : List (Fin d × ℚ))
    (S : (Fin (d + 1) → Fin N) → ℚ) (j : Fin N) :
    restrictLast (foldCollapse (L.map (fun p => (p.1.castSucc, p.2))) S) j =
      foldCollapse L (restrictLast S j) := by
  induction L generalizing S with
  | nil => rfl
  | cons p L ih =>
    rw [List.map_cons, foldCollapse_cons, foldCollapse_cons,
      ← restrict_collapse_castSucc]
    exact ih _

theorem const_eq_snoc {d N : ℕ} (i0 : Fin N) :
    (fun _ : Fin (d + 1) => i0) = Fin.snoc (fun _ : Fin d => i0) i0 := by
  funext b
  refine Fin.lastCases ?_ (fun b => ?_) b
  · rw [Fin.snoc_last]
  · rw [Fin.snoc_castSucc]

theorem booleCodeOrder_succ (d : ℕ) (h : Fin (d + 1) → ℚ) :
    booleCodeOrder (d + 1) h =
      (Fin.last d, h 0) ::
        (booleCodeOrder d (fun i => h i.succ)).map
          (fun p => (p.1.castSucc, p.2)) := by
  rw [booleCodeOrder, booleCodeOrder, List.ofFn_succ, List.map_ofFn]
  congr 1
  congr 1
  funext k
  show ((k.succ).rev, h k.succ) = ((k.rev).castSucc, h k.succ)
  rw [Fin.rev_succ]

theorem booleCodeOrder_axes_nodup (d : ℕ) (h : Fin d → ℚ) :
    ((booleCodeOrder d h).map Prod.fst).Nodup := by
  rw [booleCodeOrder, List.map_ofFn, List.nodup_ofFn]
  exact fun a b hab => Fin.rev_injective hab

/-- The code's fixed collapse order, expressed through `foldCollapse`,
computes `booleND`. -/
theorem foldCollapse_codeOrder (N : ℕ) :
    ∀ (d : ℕ) (h : Fin d → ℚ) (T : (Fin d → Fin N) → ℚ) (i0 : Fin N),
      foldCollapse (booleCodeOrder d h) T (fun _ => i0) = booleND N d h T := by
  intro d
  induction d with
  | zero =>
    intro h T i0
    rw [show booleCodeOrder 0 h = [] from List.ofFn_zero _]
    show T (fun _ => i0) = T (fun i => i.elim0)
    exact congrArg T (Subsingleton.elim _ _)
  | succ d ih =>
    intro h T i0
    rw [booleCodeOrder_succ, foldCollapse_cons, const_eq_snoc i0]
    rw [show foldCollapse
        ((booleCodeOrder d (fun i => h i.succ)).map
          (fun p => (p.1.castSucc, p.2)))
        (collapseAxis (Fin.last d) (h 0) T)
        (Fin.snoc (fun _ : Fin d => i0) i0) =
      restrictLast
        (foldCollapse
          ((booleCodeOrder d (fun i => h i.succ)).map
            (fun p => (p.1.castSucc, p.2)))
          (collapseAxis (Fin.last d) (h 0) T)) i0
        (fun _ : Fin d => i0) from rfl]
    rw [restrict_foldCollapse, restrict_collapse_last]
    rw [ih (fun i => h i.succ) (booleCollapseLast (h 0) T) i0]
    rfl

/-! ## AdaptiveNewtonCotes.integrate (adaptive_newton_cotes.py, lines 17-109)

The driver loop is translated from the source.  The collaborators it calls —
`AdaptiveGrid`, `Subdomain`, and `BaseIntegrator._eval` — are not part of the
repository sources available here; they are modelled from the spec
(sections 3, 4.2, 4.3 of the specification), as recorded in the doc comment
of each definition.  Function values are kept abstract in a type `V`
(the evaluator is a black-box vectorized callable per the spec), with the
composite-rule evaluator an abstract function `List V → V`. -/

/-- Modelled from the spec: a `Subdomain` (spec sections 3 and 4.2) carries its
refinement level, per-dimension point count, its flat cache `fval` of function
values, the number of grid points still awaiting evaluation (`pending`, empty
cache positions), the staleness flag `requires_integral_value`, and the last
stored `integral_value`.  The geometric bounds are omitted: no claim under
consideration depends on the point coordinates. -/
structure Subdomain (V : Type) where
  level : ℕ
  nPerDim : ℕ
  pending : ℕ
  fval : List V
  requiresIntegralValue : Bool
  integralValue : V
deriving DecidableEq

/-- The arguments of one `AdaptiveNewtonCotes.integrate` call, together with
its external collaborators: `adjustN` is the rule-supplied
`N_adjustment_function`, `vals` the value stream returned by the external
batched evaluator (`vals i` is the value returned for the `i`-th point ever
evaluated), and `rule` the composite-rule evaluator applied to a subdomain's
value cache. -/
structure AdaptiveConfig (V : Type) where
  dim : ℕ
  N : ℕ
  subdomainsPerDim : ℕ
  maxRefinementLevel : ℕ
  adjustN : ℕ → ℕ
  vals : ℕ → V
  rule : List V → V

/-- The driver's mutable state: the grid's list of leaf subdomains, the
evaluation counter `_nr_of_fevals` (the spec's `evals_spent`), and whether the
loop has exited (`hit_maximum_evals`). -/
structure DriverState (V : Type) where
  subdomains : List (Subdomain V)
  evals : ℕ
  done : Bool
deriving DecidableEq

/-- `initial_N = N // 10` (adaptive_newton_cotes.py, line 57): the argument
passed as `N` to the `AdaptiveGrid` constructor. -/
def initial_N (N : ℕ) : ℕ := N / 10

/-- Modelled from the spec: `BaseIntegrator._check_inputs` is not among the
sources; per spec section 6 the budget `N` is validated as a positive
integer. -/
def checkInputs (N : ℕ) : Bool := 1 ≤ N

/-- Modelled from the spec: `AdaptiveGrid.initialize` (spec section 4.3)
partitions the domain into `subdomains_per_dim ^ dim` level-0 subdomains,
each with an initial per-dimension point count derived from
`N_adjustment_function(initial_N)` and therefore `nPerDim ^ dim` pending grid
points and an empty value cache. -/
def initSubdomain {V : Type} (c : AdaptiveConfig V) : Subdomain V :=
  { level := 0, nPerDim := c.adjustN (initial_N c.N)
    pending := (c.adjustN (initial_N c.N)) ^ c.dim, fval := []
    requiresIntegralValue := true, integralValue := c.rule [] }

def initState {V : Type} (c : AdaptiveConfig V) : DriverState V :=
  { subdomains :=
      List.replicate (c.subdomainsPerDim ^ c.dim) (initSubdomain c)
    evals := 0, done := false }

/-- Modelled from the spec: `get_next_eval_points` (spec section 4.3) collects
the points still needed by every subdomain flagged
`requires_integral_value`.  The grid never receives the driver's budget `N`
(its constructor gets `initial_N = N // 10`, consumed by `initialize`), so the
emitted batch is the full list of pending points of the stale subdomains. -/
def pendingTotal {V : Type} (l : List (Subdomain V)) : ℕ :=
  (l.map (fun sd => if sd.requiresIntegralValue then sd.pending else 0)).sum

/-- Modelled from the spec: `set_fvals` (spec section 4.3) splits the returned
value batch by the recorded chunk sizes and dispatches each slice to the
owning subdomain's `ingest_values`; values are consumed from the stream in
subdomain order, starting at offset `off` (the count of evaluations made
before this batch). -/
def ingestSubs {V : Type} (vals : ℕ → V) : ℕ → List (Subdomain V) → List (Subdomain V)
  | _, [] => []
  | off, sd :: rest =>
    if sd.requiresIntegralValue then
      { sd with
        pending := 0
        fval := sd.fval ++
          (List.range sd.pending).map (fun i => vals (off + i)) } ::
        ingestSubs vals (off + sd.pending) rest
    else sd :: ingestSubs vals off rest

/-- Lines 72-78 of the driver: `get_next_eval_points`, the external evaluation
(`self._eval` increments `_nr_of_fevals` by the number of points), and
`set_fvals`. -/
def evalPhase {V : Type} (c : AdaptiveConfig V) (s : DriverState V) :
    DriverState V :=
  { s with
    subdomains := ingestSubs c.vals s.evals s.subdomains
    evals := s.evals + pendingTotal s.subdomains }

/-- Lines 82-101 of the driver: for each subdomain, skip it when
`requires_integral_value` is false, otherwise apply the composite rule to its
value cache and store the result (`set_integral` clears the flag). -/
def integrateSkip {V : Type} (rule : List V → V) (l : List (Subdomain V)) :
    List (Subdomain V) :=
  l.map (fun sd =>
    if sd.requiresIntegralValue then
      { sd with
        integralValue := rule sd.fval
        requiresIntegralValue := false }
    else sd)

/-- The variant the spec calls equivalent: recompute every subdomain's
integral on each pass, fresh or not. -/
def integrateAll {V : Type} (rule : List V → V) (l : List (Subdomain V)) :
    List (Subdomain V) :=
  l.map (fun sd =>
    { sd with
      integralValue := rule sd.fval
      requiresIntegralValue := false })

def integratePhase {V : Type} (c : AdaptiveConfig V) (s : DriverState V) :
    DriverState V :=
  { s with subdomains := integrateSkip c.rule s.subdomains }

def integrateAllPhase {V : Type} (c : AdaptiveConfig V) (s : DriverState V) :
    DriverState V :=
  { s with subdomains := integrateAll c.rule s.subdomains }

/-- Modelled from the spec: a `split` (spec section 4.2) replaces a subdomain
by `subdomains_per_dim ^ dim` children at the next refinement level, each with
a fresh grid needing evaluation.  Children keep the parent's per-dimension
point count (the spec fixes no other derivation); the corner-value reuse of
`reuse_old_fvals` is not modelled — no claim under consideration depends on
the exact pending counts of children. -/
def splitSub {V : Type} (c : AdaptiveConfig V) (sd : Subdomain V) :
    List (Subdomain V) :=
  List.replicate (c.subdomainsPerDim ^ c.dim)
    { level := sd.level + 1, nPerDim := sd.nPerDim
      pending := sd.nPerDim ^ c.dim, fval := []
      requiresIntegralValue := true, integralValue := c.rule [] }

/-- Modelled from the spec: `refine` (spec section 4.3) splits every eligible
subdomain once per outer iteration, level-gated by `max_refinement_level`
(uniform refinement, the baseline policy the spec describes).  The
budget-bounding clause of section 4.3 refers to a total budget the driver
never passes to the grid (the constructor receives `N // 10`, see
`initial_N`), so the grid cannot consult the driver's `N` here. -/
def refineGrid {V : Type} (c : AdaptiveConfig V) (l : List (Subdomain V)) :
    List (Subdomain V) :=
  l.flatMap (fun sd =>
    if sd.level < c.maxRefinementLevel then splitSub c sd else [sd])

/-- One iteration of the driver loop (lines 71-107): evaluate, integrate the
stale subdomains, test `hit_maximum_evals = self._nr_of_fevals >= N`, and
refine only when the budget is not yet exhausted.  A finished state is left
unchanged. -/
def driverStep {V : Type} (c : AdaptiveConfig V) (s : DriverState V) :
    DriverState V :=
  if s.done then s
  else if c.N ≤ (integratePhase c (evalPhase c s)).evals then
    { integratePhase c (evalPhase c s) with done := true }
  else
    { integratePhase c (evalPhase c s) with
      subdomains := refineGrid c (integratePhase c (evalPhase c s)).subdomains }

/-- The same step with the integrate phase recomputing every subdomain. -/
def driverStepAll {V : Type} (c : AdaptiveConfig V) (s : DriverState V) :
    DriverState V :=
  if s.done then s
  else if c.N ≤ (integrateAllPhase c (evalPhase c s)).evals then
    { integrateAllPhase c (evalPhase c s) with done := true }
  else
    { integrateAllPhase c (evalPhase c s) with
      subdomains :=
        refineGrid c (integrateAllPhase c (evalPhase c s)).subdomains }

def driverRun {V : Type} (c : AdaptiveConfig V) :
    ℕ → DriverState V → DriverState V
  | 0, s => s
  | n + 1, s => driverRun c n (driverStep c s)

def driverRunAll {V : Type} (c : AdaptiveConfig V) :
    ℕ → DriverState V → DriverState V
  | 0, s => s
  | n + 1, s => driverRunAll c n (driverStepAll c s)

/-- `get_integral` (spec section 4.3): the sum of the stored subdomain
integrals, returned at line 109 of the driver. -/
def getIntegral {V : Type} [Add V] [Zero V] (s : DriverState V) : V :=
  (s.subdomains.map (fun sd => sd.integralValue)).sum

/-! ## Invariants of the driver loop -/

/-- After the integrate phase, no subdomain is stale. -/
theorem mem_integrateSkip_fresh {V : Type} (rule : List V → V)
    (l : List (Subdomain V)) :
    ∀ sd ∈ integrateSkip rule l, sd.requiresIntegralValue = false := by
  intro sd hsd
  simp only [integrateSkip, List.mem_map] at hsd
  obtain ⟨sd0, _, rfl⟩ := hsd
  by_cases hr : sd0.requiresIntegralValue
  · rw [if_pos hr]
  · rw [if_neg hr]
    simpa using hr

/-- A subdomain list is fresh-consistent when every non-stale subdomain
stores exactly the composite rule applied to its current value cache
(spec invariant (d) of section 3). -/
def FreshConsistent {V : Type} (rule : List V → V)
    (l : List (Subdomain V)) : Prop :=
  ∀ sd ∈ l, sd.requiresIntegralValue = false →
    sd.integralValue = rule sd.fval

theorem freshConsistent_init {V : Type} (c : AdaptiveConfig V) :
    FreshConsistent c.rule (initState c).subdomains := by
  intro sd hsd hf
  have heq := List.eq_of_mem_replicate hsd
  subst heq
  simp [initSubdomain] at hf

theorem freshConsistent_ingest {V : Type} (vals : ℕ → V) (rule : List V → V) :
    ∀ (off : ℕ) (l : List (Subdomain V)), FreshConsistent rule l →
      FreshConsistent rule (ingestSubs vals off l) := by
  intro off l
  induction l generalizing off with
  | nil =>
    intro _ sd hsd
    simp [ingestSubs] at hsd
  | cons sd0 rest ih =>
    intro hl sd hsd hf
    have hrest : FreshConsistent rule rest :=
      fun x hx hxf => hl x (List.mem_cons_of_mem _ hx) hxf
    rw [ingestSubs] at hsd
    by_cases hr : sd0.requiresIntegralValue
    · rw [if_pos hr] at hsd
      rcases List.mem_cons.mp hsd with h | h
      · subst h
        simp [hr] at hf
      · exact ih _ hrest sd h hf
    · rw [if_neg hr] at hsd
      rcases List.mem_cons.mp hsd with h | h
      · subst h
        exact hl _ (List.mem_cons_self _ _) hf
      · exact ih _ hrest sd h hf

theorem freshConsistent_integrateSkip {V : Type} (rule : List V → V)
    (l : List (Subdomain V)) (hl : FreshConsistent rule l) :
    FreshConsistent rule (integrateSkip rule l) := by
  intro sd hsd hf
  simp only [integrateSkip, List.mem_map] at hsd
  obtain ⟨sd0, hmem, rfl⟩ := hsd
  by_cases hr : sd0.requiresIntegralValue
  · rw [if_pos hr]
  · rw [if_neg hr]
    exact hl sd0 hmem (by simpa using hr)

theorem freshConsistent_refine {V : Type} (c : AdaptiveConfig V)
    (l : List (Subdomain V)) (hl : FreshConsistent c.rule l) :
    FreshConsistent c.rule (refineGrid c l) := by
  intro sd hsd hf
  simp only [refineGrid, List.mem_flatMap] at hsd
  obtain ⟨sd0, hmem, hin⟩ := hsd
  by_cases hle : sd0.level < c.maxRefinementLevel
  · rw [if_pos hle] at hin
    have heq := List.eq_of_mem_replicate hin
    subst heq
    simp at hf
  · rw [if_neg hle] at hin
    have heq := List.mem_singleton.mp hin
    subst heq
    exact hl _ hmem hf

/-- On a fresh-consistent list, recomputing all subdomains and recomputing
only the stale ones produce the same list. -/
theorem integrateAll_eq_skip {V : Type} (rule : List V → V)
    (l : List (Subdomain V)) (hl : FreshConsistent rule l) :
    integrateAll rule l = integrateSkip rule l := by
  rw [integrateAll, integrateSkip]
  refine List.map_congr_left (fun sd hsd => ?_)
  by_cases hr : sd.requiresIntegralValue
  · rw [if_pos hr]
  · rw [if_neg hr]
    have h1 : sd.requiresIntegralValue = false := by simpa using hr
    have h2 := hl sd hsd h1
    cases sd with
    | mk lv np pd fv rq iv =>
      simp only at h1 h2
      subst h1
      subst h2
      rfl

theorem stepAll_eq_step {V : Type} (c : AdaptiveConfig V) (s : DriverState V)
    (hs : FreshConsistent c.rule s.subdomains) :
    driverStepAll c s = driverStep c s := by
  rw [driverStepAll, driverStep]
  by_cases hd : s.done
  · rw [if_pos hd, if_pos hd]
  · have hphase : integrateAllPhase c (evalPhase c s) =
        integratePhase c (evalPhase c s) := by
      have hcon : FreshConsistent c.rule (evalPhase c s).subdomains :=
        freshConsistent_ingest c.vals c.rule s.evals s.subdomains hs
      rw [integrateAllPhase, integratePhase,
        integrateAll_eq_skip c.rule _ hcon]
    rw [if_neg hd, if_neg hd, hphase]

theorem freshConsistent_step {V : Type} (c : AdaptiveConfig V)
    (s : DriverState V) (hs : FreshConsistent c.rule s.subdomains) :
    FreshConsistent c.rule (driverStep c s).subdomains := by
  rw [driverStep]
  by_cases hd : s.done
  · rw [if_pos hd]
    exact hs
  · rw [if_neg hd]
    have h1 : FreshConsistent c.rule
        (integratePhase c (evalPhase c s)).subdomains :=
      freshConsistent_integrateSkip c.rule _
        (freshConsistent_ingest c.vals c.rule s.evals s.subdomains hs)
    by_cases hc : c.N ≤ (integratePhase c (evalPhase c s)).evals
    · rw [if_pos hc]
      exact h1
    · rw [if_neg hc]
      exact freshConsistent_refine c _ h1

theorem runAll_eq_run {V : Type} (c : AdaptiveConfig V) :
    ∀ (n : ℕ) (s : DriverState V), FreshConsistent c.rule s.subdomains →
      driverRunAll c n s = driverRun c n s := by
  intro n
  induction n with
  | zero => intro s _; rfl
  | succ n ih =>
    intro s hs
    rw [show driverRunAll c (n + 1) s =
        driverRunAll c n (driverStepAll c s) from rfl,
      show driverRun c (n + 1) s = driverRun c n (driverStep c s) from rfl,
      stepAll_eq_step c s hs]
    exact ih _ (freshConsistent_step c s hs)

/-! ## Concrete driver instantiations (integer-valued, for witnesses and
counterexamples); `adjustN` instantiates the rule-supplied adjustment with a
trapezoid-like minimum of two points per axis. -/

def cexConfigOne : AdaptiveConfig ℕ :=
  { dim := 1
    N := 30
    subdomainsPerDim := 2
    maxRefinementLevel := 4
    adjustN := fun x => max x 2
    vals := fun _ => 0
    rule := fun l => l.sum }

/-- Same run with refinement disabled by the depth cap (`max_refinement_level`
is allowed to be 0 by the external interface). -/
def cexConfigTwo : AdaptiveConfig ℕ :=
  { dim := 1
    N := 30
    subdomainsPerDim := 2
    maxRefinementLevel := 0
    adjustN := fun x => max x 2
    vals := fun _ => 0
    rule := fun l => l.sum }

/-- A small budget exhausted by the very first evaluation. -/
def cexConfigThree : AdaptiveConfig ℕ :=
  { dim := 1
    N := 3
    subdomainsPerDim := 2
    maxRefinementLevel := 4
    adjustN := fun x => max x 2
    vals := fun _ => 0
    rule := fun l => l.sum }

/-- Claim C1, counterexample: the cumulative evaluation count can exceed the
budget `N`.  With budget 30, the run spends 6, then 12, then 24 further
evaluations: the final iteration evaluates its whole refined batch before the
budget check runs, ending at 42 > 30. -/
theorem claim_C1_counterexample :
    cexConfigOne.N = 30 ∧
      (driverRun cexConfigOne 3 (initState cexConfigOne)).evals = 42 ∧
      cexConfigOne.N <
        (driverRun cexConfigOne 3 (initState cexConfigOne)).evals := by
  decide

/-- Claim C1 (amended): the cumulative evaluation count is below the budget
`N` whenever the loop continues; only the final iteration can push it past
`N`, because the budget check `hit_maximum_evals = self._nr_of_fevals >= N`
runs after the batch has already been evaluated. -/
theorem claim_C1_amended (V : Type) (c : AdaptiveConfig V)
    (s : DriverState V) (h1 : s.done = false)
    (h2 : (driverStep c s).done = false) :
    (driverStep c s).evals < c.N := by
  by_cases hc : c.N ≤ (integratePhase c (evalPhase c s)).evals
  · rw [driverStep, if_neg (by simp [h1]), if_pos hc] at h2
    simp at h2
  · rw [driverStep, if_neg (by simp [h1]), if_neg hc]
    exact Nat.lt_of_not_le hc

theorem claim_C1_amended_witness :
    (initState cexConfigOne).done = false ∧
      (driverStep cexConfigOne (initState cexConfigOne)).done = false ∧
      (driverStep cexConfigOne (initState cexConfigOne)).evals <
        cexConfigOne.N :=
  ⟨by decide, by decide,
    claim_C1_amended ℕ cexConfigOne (initState cexConfigOne)
      (by decide) (by decide)⟩

/-- Claim C2, counterexample: the loop need not terminate.  With
`max_refinement_level = 0` and budget 30, the first iteration spends only 6
evaluations; from then on the state is a fixed point of the loop body with
`hit_maximum_evals` still false, so the loop repeats forever. -/
theorem claim_C2_counterexample :
    (driverStep cexConfigTwo (initState cexConfigTwo)).done = false ∧
      driverStep cexConfigTwo (driverStep cexConfigTwo (initState cexConfigTwo)) =
        driverStep cexConfigTwo (initState cexConfigTwo) := by
  decide

/-- Claim C2 (amended): an iteration of the loop ends it exactly when the
evaluation count has reached the budget `N` — no error tolerance or other
condition stops the loop, and it never continues once the count reached `N` —
but termination itself is not guaranteed: when refinement stalls below the
budget (see the counterexample) the loop runs forever. -/
theorem claim_C2_amended (V : Type) (c : AdaptiveConfig V)
    (s : DriverState V) (h1 : s.done = false) :
    (driverStep c s).done = true ↔ c.N ≤ (driverStep c s).evals := by
  by_cases hc : c.N ≤ (integratePhase c (evalPhase c s)).evals
  · rw [driverStep, if_neg (by simp [h1]), if_pos hc]
    simpa using hc
  · rw [driverStep, if_neg (by simp [h1]), if_neg hc]
    have hdone : ({ integratePhase c (evalPhase c s) with
        subdomains :=
          refineGrid c (integratePhase c (evalPhase c s)).subdomains } :
        DriverState V).done = false := h1
    have hev : ({ integratePhase c (evalPhase c s) with
        subdomains :=
          refineGrid c (integratePhase c (evalPhase c s)).subdomains } :
        DriverState V).evals = (integratePhase c (evalPhase c s)).evals := rfl
    rw [hdone, hev]
    simp [hc]

theorem claim_C2_amended_witness :
    (initState cexConfigThree).done = false ∧
      ((driverStep cexConfigThree (initState cexConfigThree)).done = true ↔
        cexConfigThree.N ≤
          (driverStep cexConfigThree (initState cexConfigThree)).evals) :=
  ⟨by decide,
    claim_C2_amended ℕ cexConfigThree (initState cexConfigThree) (by decide)⟩

/-- Claim C7: recomputing the integral of every subdomain on each
evaluate-to-integrate step yields the same final returned integral as the
implemented optimization that skips subdomains whose
`requires_integral_value` flag is false, for every configuration and any
number of loop iterations. -/
theorem claim_C7_recompute_equivalence (V : Type) [Add V] [Zero V]
    (c : AdaptiveConfig V) (n : ℕ) :
    getIntegral (driverRunAll c n (initState c)) =
      getIntegral (driverRun c n (initState c)) := by
  rw [runAll_eq_run c n (initState c) (freshConsistent_init c)]

/-- Claim C8: once the evaluation count has reached the budget `N`, the
iteration ends the loop directly after the integrate phase — `refine()` is
not invoked, and the state is exactly the integrated state marked done, from
which the aggregated integral is returned. -/
theorem claim_C8_no_refine_after_budget (V : Type) (c : AdaptiveConfig V)
    (s : DriverState V) (h1 : s.done = false)
    (h2 : c.N ≤ (integratePhase c (evalPhase c s)).evals) :
    driverStep c s = { integratePhase c (evalPhase c s) with done := true } := by
  rw [driverStep, if_neg (by simp [h1]), if_pos h2]

theorem claim_C8_witness :
    (initState cexConfigThree).done = false ∧
      cexConfigThree.N ≤
        (integratePhase cexConfigThree
          (evalPhase cexConfigThree (initState cexConfigThree))).evals ∧
      driverStep cexConfigThree (initState cexConfigThree) =
        { integratePhase cexConfigThree
            (evalPhase cexConfigThree (initState cexConfigThree)) with
          done := true } :=
  ⟨by decide, by decide,
    claim_C8_no_refine_after_budget ℕ cexConfigThree (initState cexConfigThree)
      (by decide) (by decide)⟩

/-- Claim C9: whenever an iteration exits the loop, every subdomain of the
final grid has `requires_integral_value = false`: the integrate phase
freshens every stale subdomain before the budget check, and no refine happens
after the final evaluation, so `get_integral`'s freshness precondition holds
at the driver's call site. -/
theorem claim_C9_all_fresh_at_exit (V : Type) (c : AdaptiveConfig V)
    (s : DriverState V) (h1 : s.done = false)
    (h2 : (driverStep c s).done = true) :
    ∀ sd ∈ (driverStep c s).subdomains, sd.requiresIntegralValue = false := by
  by_cases hc : c.N ≤ (integratePhase c (evalPhase c s)).evals
  · rw [driverStep, if_neg (by simp [h1]), if_pos hc]
    exact fun sd hsd => mem_integrateSkip_fresh c.rule _ sd hsd
  · exfalso
    rw [driverStep, if_neg (by simp [h1]), if_neg hc] at h2
    have h3 : s.done = true := h2
    rw [h1] at h3
    simp at h3

theorem claim_C9_witness :
    (initState cexConfigThree).done = false ∧
      (driverStep cexConfigThree (initState cexConfigThree)).done = true ∧
      ∀ sd ∈ (driverStep cexConfigThree (initState cexConfigThree)).subdomains,
        sd.requiresIntegralValue = false :=
  ⟨by decide, by decide,
    claim_C9_all_fresh_at_exit ℕ cexConfigThree (initState cexConfigThree)
      (by decide) (by decide)⟩

/-- Claim C10: the `AdaptiveGrid` is constructed with the internal initial
point budget `initial_N = N // 10` (integer floor division) rather than `N`
itself; for every `N < 10` that budget is 0, even though such an `N` passes
input validation. -/
theorem claim_C10_initial_budget :
    ∀ N : ℕ, initial_N N = N / 10 ∧ (initial_N N = 0 ↔ N < 10) ∧
      (checkInputs N = true ↔ 1 ≤ N) ∧
      ∀ (V : Type) (c : AdaptiveConfig V),
        (initState c).subdomains =
            List.replicate (c.subdomainsPerDim ^ c.dim) (initSubdomain c) ∧
          (initSubdomain c).nPerDim = c.adjustN (initial_N c.N) := by
  intro N
  refine ⟨rfl, ?_, ?_, fun V c => ⟨rfl, rfl⟩⟩
  · exact Nat.div_eq_zero_iff (by norm_num)
  · rw [checkInputs]
    exact decide_eq_true_iff

/-- Claim C3: for a grid of function values whose axis length `n` satisfies
`(n - 1) % 4 = 0`, the sliced-stencil collapse of `Boole.integrate` computes,
along the axis, exactly the composite closed Newton-Cotes Boole sum over the
`(n-1)/4` stride-4 windows `h/22.5 * (7 f[4k] + 32 f[4k+1] + 12 f[4k+2] +
32 f[4k+3] + 7 f[4k+4])`, adjacent windows sharing their endpoint. -/
theorem claim_C3_stencil_is_composite_sum (h : ℚ) (a : List ℚ)
    (_hlen : 1 ≤ a.length) (_hmod : (a.length - 1) % 4 = 0) :
    boole1D h a = booleCompositeSum h a :=
  boole1D_eq_windowSum h a

theorem claim_C3_witness :
    1 ≤ ([0, 1, 2, 3, 4] : List ℚ).length ∧
      (([0, 1, 2, 3, 4] : List ℚ).length - 1) % 4 = 0 ∧
      boole1D 1 [0, 1, 2, 3, 4] = booleCompositeSum 1 [0, 1, 2, 3, 4] :=
  ⟨by norm_num, by norm_num,
    claim_C3_stencil_is_composite_sum 1 [0, 1, 2, 3, 4]
      (by norm_num) (by norm_num)⟩

/-- Claim C5: `Boole.integrate` raises its `ValueError` exactly when the
per-dimension grid point count fails `(gridN - 1) % 4 == 0` (Python integer
modulo, i.e. `Int.emod`), in which case the integrand is never evaluated; when
the constraint holds no error is raised, the integrand is evaluated at all
`gridN ^ dim` grid points (no silent truncation), and the collapse of the full
grid is returned. -/
theorem claim_C5_grid_size_check (dim gridN : ℕ) (h : Fin dim → ℚ)
    (T : (Fin dim → Fin gridN) → ℚ) :
    (booleIntegrate dim gridN h T).errorRaised =
        decide (((gridN : ℤ) - 1) % 4 > 0) ∧
      (booleIntegrate dim gridN h T).evalCount =
        (if ((gridN : ℤ) - 1) % 4 > 0 then 0 else gridN ^ dim) ∧
      (booleIntegrate dim gridN h T).result =
        (if ((gridN : ℤ) - 1) % 4 > 0 then none
          else some (booleND gridN dim h T)) := by
  rw [booleIntegrate]
  split_ifs with hc
  · simp [hc]
  · simp [hc]

/-- Claim C4: (first part) for every polynomial integrand of per-variable
degree at most 4 (hence every polynomial of degree at most the rule order
minus one) and every valid grid size `4M+1` per axis, the composite rule's
collapse equals the closed-form integral of the polynomial over the box, in
every dimension; (second part) in particular for `dim = 2`, the domain
`[-1,1] x [-1,1]` and the constant integrand 1, the result is exactly 4 for
every valid `N = 4M+1`. -/
theorem claim_C4_polynomial_exactness :
    (∀ (d M : ℕ), 1 ≤ M → ∀ (lo hi : Fin d → ℚ) (C : (Fin d → Fin 5) → ℚ),
      booleND (4 * M + 1) d (fun i => (hi i - lo i) / (4 * M))
        (fun idx => polyEval d C
          (fun i => lo i + ((idx i.rev : ℕ) : ℚ) * ((hi i - lo i) / (4 * M)))) =
        exactBoxIntegral d lo hi C) ∧
    ∀ M : ℕ, 1 ≤ M →
      booleND (4 * M + 1) 2 (fun _ => 2 / (4 * (M : ℚ))) (fun _ => 1) = 4 := by
  refine ⟨fun d M hM lo hi C => booleND_poly_exact d M hM lo hi C, ?_⟩
  intro M hM
  have h1 := booleND_poly_exact 2 M hM (fun _ => (-1 : ℚ)) (fun _ => (1 : ℚ))
    (fun α => if α = (fun _ => (0 : Fin 5)) then 1 else 0)
  have hh : (fun i : Fin 2 =>
      ((fun _ => (1 : ℚ)) i - (fun _ => (-1 : ℚ)) i) / (4 * M)) =
      fun _ : Fin 2 => 2 / (4 * (M : ℚ)) := by
    funext i
    norm_num
  have hT : (fun idx : Fin 2 → Fin (4 * M + 1) =>
      polyEval 2 (fun α => if α = (fun _ => (0 : Fin 5)) then 1 else 0)
        (fun i => (fun _ => (-1 : ℚ)) i +
          ((idx i.rev : ℕ) : ℚ) *
            (((fun _ => (1 : ℚ)) i - (fun _ => (-1 : ℚ)) i) / (4 * M)))) =
      fun _ : Fin 2 → Fin (4 * M + 1) => (1 : ℚ) := by
    funext idx
    rw [polyEval]
    simp only [ite_mul, one_mul, zero_mul]
    rw [Finset.sum_ite_eq']
    simp
  have hbox : exactBoxIntegral 2 (fun _ => (-1 : ℚ)) (fun _ => (1 : ℚ))
      (fun α => if α = (fun _ => (0 : Fin 5)) then 1 else 0) = 4 := by
    rw [exactBoxIntegral]
    simp only [ite_mul, one_mul, zero_mul]
    rw [Finset.sum_ite_eq']
    simp [exactMonomialIntegral, Fin.prod_univ_two]
    norm_num
  rw [hh, hT] at h1
  rw [h1, hbox]

theorem claim_C4_witness :
    booleND 5 1 (fun i =>
        (((fun _ => (3 : ℚ)) i) - ((fun _ => (0 : ℚ)) i)) / (4 * (1 : ℕ)))
      (fun idx => polyEval 1 (fun _ => 1)
        (fun i => (fun _ => (0 : ℚ)) i +
          ((idx i.rev : ℕ) : ℚ) *
            ((((fun _ => (3 : ℚ)) i) - ((fun _ => (0 : ℚ)) i)) / (4 * (1 : ℕ))))) =
      exactBoxIntegral 1 (fun _ => 0) (fun _ => 3) (fun _ => 1) ∧
    booleND 5 2 (fun _ => 2 / (4 * ((1 : ℕ) : ℚ))) (fun _ => 1) = 4 := by
  constructor
  · exact claim_C4_polynomial_exactness.1 1 1 (by norm_num)
      (fun _ => 0) (fun _ => 3) (fun _ => 1)
  · exact claim_C4_polynomial_exactness.2 1 (by norm_num)

/-- Claim C6: for every dense hyper-grid of function values and per-axis
spacing assignment, collapsing the (axis, spacing) pairs of the code's
collapse order in any order yields the same scalar result as the fixed order
`Boole.integrate` uses. -/
theorem claim_C6_collapse_order_free (N d : ℕ) (h : Fin d → ℚ)
    (T : (Fin d → Fin N) → ℚ) (l : List (Fin d × ℚ)) (i0 : Fin N)
    (hp : l.Perm (booleCodeOrder d h)) :
    foldCollapse l T (fun _ => i0) = booleND N d h T := by
  rw [foldCollapse_perm hp
    (((hp.map Prod.fst).nodup_iff).mpr (booleCodeOrder_axes_nodup d h)) T]
  exact foldCollapse_codeOrder N d h T i0

def cexOrderH : Fin 2 → ℚ := fun k => if k = 0 then 1 else 2

def cexOrderT : (Fin 2 → Fin 5) → ℚ := fun idx =>
  ((idx 0 : ℕ) : ℚ) + 3 * ((idx 1 : ℕ) : ℚ)

theorem cexCodeOrder_eq :
    booleCodeOrder 2 cexOrderH =
      [((1 : Fin 2), cexOrderH 0), ((0 : Fin 2), cexOrderH 1)] := by
  rw [booleCodeOrder, List.ofFn_succ, List.ofFn_succ, List.ofFn_zero]
  rw [show ((0 : Fin 2)).rev = (1 : Fin 2) from rfl,
    show ((0 : Fin 1).succ).rev = (0 : Fin 2) from rfl]
  rfl

theorem claim_C6_witness :
    foldCollapse [((0 : Fin 2), cexOrderH 1), ((1 : Fin 2), cexOrderH 0)]
        cexOrderT (fun _ => (0 : Fin 5)) =
      booleND 5 2 cexOrderH cexOrderT :=
  claim_C6_collapse_order_free 5 2 cexOrderH cexOrderT
    [((0 : Fin 2), cexOrderH 1), ((1 : Fin 2), cexOrderH 0)] (0 : Fin 5)
    (cexCodeOrder_eq ▸ List.Perm.swap ((1 : Fin 2), cexOrderH 0)
      ((0 : Fin 2), cexOrderH 1) [])
